import Mathlib

/-!
Verification of the lora-telemetry-decoder repository: a shallow embedding of
`src/decoder.py` (BitReader, SystemFlags, TelemetryPacket, TelemetryDecoder),
`src/filters.py` (FilterManager) and the test generator `test_decoder.py`
(BitWriter, generate_test_packet), together with theorems checking the
natural-language specification against that embedding.

Bytes are modelled as natural numbers below 256, byte buffers as `List Nat`,
Python `int` as `Int` (or `Nat` where the source value is provably
non-negative), and raised exceptions as `Except` errors.
-/

/-- Constant `PACKET_SIZE = 42` from decoder.py. -/
def PACKET_SIZE : Nat := 42

/-- The value of a little-endian byte buffer as one natural number:
bit `k` of the buffer (LSB-first order: bit 0 = LSB of byte 0) is bit `k`
of `bytesVal data`. -/
def bytesVal : List Nat → Nat
  | [] => 0
  | b :: bs => b + 256 * bytesVal bs

/-- State of `BitReader` from decoder.py: the borrowed buffer and the bit
position.  `_max_bits` is derived (`len(data) * 8`). -/
structure BitReader where
  data : List Nat
  bit_pos : Nat
deriving DecidableEq

/-- Derived `self._max_bits = len(data) * 8` from `BitReader.__init__`. -/
def BitReader.max_bits (r : BitReader) : Nat := r.data.length * 8

/-- The while-loop of `BitReader.read_bits`, one constructor case per
iteration.  `fuel` bounds the number of iterations: each iteration takes
`min (8 - bit_pos % 8) remain ≥ 1` bits, so `remain` iterations always
suffice and the loop is run with `fuel = remain`.  Arguments after `fuel`
are the loop state: `bit_pos`, `shift`, `result`, `remain`. -/
def readLoop (data : List Nat) : Nat → Nat → Nat → Nat → Nat → Nat × Nat
  | _, bit_pos, _, result, 0 => (result, bit_pos)
  | 0, bit_pos, _, result, _ + 1 => (result, bit_pos)
  | fuel + 1, bit_pos, shift, result, remain + 1 =>
    let byte_idx := bit_pos / 8
    let bit_in_byte := bit_pos % 8
    let available := 8 - bit_in_byte
    let tk := min available (remain + 1)
    let byte_val := data.getD byte_idx 0
    let mask := 2 ^ tk - 1
    let chunk := (byte_val >>> bit_in_byte) &&& mask
    readLoop data fuel (bit_pos + tk) (shift + tk) (result ||| (chunk <<< shift))
      (remain + 1 - tk)

/-- Method `BitReader.read_bits` from decoder.py, for `n ≥ 0` (the `n < 0` branch
cannot arise with `n : Nat`).  The Python method mutates `self` and returns
the value or raises `ValueError`; this is modelled by returning the value
(or the error) together with the post-call reader state, which is unchanged
when the bounds check fails. -/
def BitReader.read_bits (r : BitReader) (n : Nat) : Except String Nat × BitReader :=
  if n = 0 then (.ok 0, r)
  else if r.bit_pos + n > r.max_bits then (.error "Not enough bits", r)
  else
    let p := readLoop r.data n r.bit_pos 0 0 n
    (.ok p.1, { r with bit_pos := p.2 })

/-- Method `BitReader.bits_left` from decoder.py (`self._max_bits - self._bit_pos`,
a Python `int` subtraction). -/
def BitReader.bits_left (r : BitReader) : Int := (r.max_bits : Int) - (r.bit_pos : Int)

/-- The `n`-bit field starting at bit offset `p` of a buffer, read LSB-first:
the specification-side description of what `read_bits` extracts. -/
def field (data : List Nat) (p w : Nat) : Nat := bytesVal data / 2 ^ p % 2 ^ w

/-- Dataclass `SystemFlags` from decoder.py. -/
structure SystemFlags where
  err : Bool
  wait : Bool
  ok : Bool
  ping : Bool
  command : Bool
  land : Bool
  eject : Bool
  start : Bool
deriving DecidableEq

/-- Classmethod `SystemFlags.from_byte` from decoder.py: direct bit tests on the flags
byte (`bool(b & 0x01)` etc.). -/
def SystemFlags.from_byte (b : Nat) : SystemFlags where
  err := b &&& 0x01 != 0
  wait := b &&& 0x02 != 0
  ok := b &&& 0x04 != 0
  ping := b &&& 0x08 != 0
  command := b &&& 0x10 != 0
  land := b &&& 0x20 != 0
  eject := b &&& 0x40 != 0
  start := b &&& 0x80 != 0

/-- Character `'1' if f else '0'` for one flag. -/
def flagChar (f : Bool) : Char := if f then '1' else '0'

/-- Method `SystemFlags.to_string` from decoder.py: joins the flag characters in
the order `err, wait, ok, ping, command, land, eject, start`. -/
def SystemFlags.to_string (f : SystemFlags) : String :=
  String.mk [flagChar f.err, flagChar f.wait, flagChar f.ok, flagChar f.ping,
    flagChar f.command, flagChar f.land, flagChar f.eject, flagChar f.start]

/-- Dataclass `TelemetryPacket` from decoder.py.  Every numeric field is a Python
`int`, modelled as `Int`. -/
structure TelemetryPacket where
  time_ms : Int
  temp_cC : Int
  pressPa : Int
  magX : Int
  magY : Int
  magZ : Int
  accelX : Int
  accelY : Int
  accelZ : Int
  gyroX : Int
  gyroY : Int
  gyroZ : Int
  lat_1e7 : Int
  lon_1e7 : Int
  flags : SystemFlags
  radData0 : Int
  radData1 : Int
  radData2 : Int
  radData3 : Int
deriving DecidableEq

/-- The `'flags'` entry of `TelemetryPacket.to_dict` (decoder.py line 122),
which is the value the CSV exporter writes unmodified into each row. -/
def TelemetryPacket.to_dict_flags (p : TelemetryPacket) : String := p.flags.to_string

/-- Function `_sign_extend` from decoder.py, applied (as in all call sites) to the
non-negative result of `read_bits`. -/
def _sign_extend (value : Nat) (bits : Nat) : Int :=
  let sign_bit := 1 <<< (bits - 1)
  let mask := (1 <<< bits) - 1
  let v := value &&& mask
  if v &&& sign_bit != 0 then (v : Int) - (1 <<< bits : Nat) else (v : Int)

/-- The spec's decode-failure taxonomy (§7): `WrongLength` is the
`ValueError('Expected 42 bytes...')` raised by `_decode_packet`,
`OutOfRange` the `ValueError` raised by `BitReader.read_bits`, and
`Implausible` the `_is_valid_packet` rejection. -/
inductive DecodeError where
  | wrongLength : DecodeError
  | outOfRange : DecodeError
  | implausibleRecord : DecodeError
deriving DecidableEq

/-- Wrapper around `read_bits` as used inside `_decode_packet`: the raised `ValueError`
becomes an `OutOfRange` decode error, a normal return yields the value and
the advanced reader. -/
def BitReader.readBitsE (r : BitReader) (n : Nat) : Except DecodeError (Nat × BitReader) :=
  match r.read_bits n with
  | (.ok v, r') => .ok (v, r')
  | (.error _, _) => .error .outOfRange

/-- Method `TelemetryDecoder._decode_packet` from decoder.py: the wrong-length
guard, then the fixed sequence of LSB-first reads (24, 14, 20, 30, 30, 2,
nine 16-bit signed, 8, four 16-bit unsigned), sign-extending exactly the
signed fields; a raised `ValueError` from `read_bits` propagates. -/
def _decode_packet (data : List Nat) : Except DecodeError TelemetryPacket :=
  if data.length ≠ PACKET_SIZE then .error .wrongLength
  else
    match BitReader.readBitsE ⟨data, 0⟩ 24 with
    | .error e => .error e
    | .ok (time_ms, r) =>
    match r.readBitsE 14 with
    | .error e => .error e
    | .ok (temp_raw, r) =>
    match r.readBitsE 20 with
    | .error e => .error e
    | .ok (pressPa, r) =>
    match r.readBitsE 30 with
    | .error e => .error e
    | .ok (lat_raw, r) =>
    match r.readBitsE 30 with
    | .error e => .error e
    | .ok (lon_raw, r) =>
    match r.readBitsE 2 with
    | .error e => .error e
    | .ok (_dummy, r) =>
    match r.readBitsE 16 with
    | .error e => .error e
    | .ok (magX_raw, r) =>
    match r.readBitsE 16 with
    | .error e => .error e
    | .ok (magY_raw, r) =>
    match r.readBitsE 16 with
    | .error e => .error e
    | .ok (magZ_raw, r) =>
    match r.readBitsE 16 with
    | .error e => .error e
    | .ok (accelX_raw, r) =>
    match r.readBitsE 16 with
    | .error e => .error e
    | .ok (accelY_raw, r) =>
    match r.readBitsE 16 with
    | .error e => .error e
    | .ok (accelZ_raw, r) =>
    match r.readBitsE 16 with
    | .error e => .error e
    | .ok (gyroX_raw, r) =>
    match r.readBitsE 16 with
    | .error e => .error e
    | .ok (gyroY_raw, r) =>
    match r.readBitsE 16 with
    | .error e => .error e
    | .ok (gyroZ_raw, r) =>
    match r.readBitsE 8 with
    | .error e => .error e
    | .ok (flags_byte, r) =>
    match r.readBitsE 16 with
    | .error e => .error e
    | .ok (rad0, r) =>
    match r.readBitsE 16 with
    | .error e => .error e
    | .ok (rad1, r) =>
    match r.readBitsE 16 with
    | .error e => .error e
    | .ok (rad2, r) =>
    match r.readBitsE 16 with
    | .error e => .error e
    | .ok (rad3, _r) =>
    .ok {
      time_ms := time_ms
      temp_cC := _sign_extend temp_raw 14
      pressPa := pressPa
      magX := _sign_extend magX_raw 16
      magY := _sign_extend magY_raw 16
      magZ := _sign_extend magZ_raw 16
      accelX := _sign_extend accelX_raw 16
      accelY := _sign_extend accelY_raw 16
      accelZ := _sign_extend accelZ_raw 16
      gyroX := _sign_extend gyroX_raw 16
      gyroY := _sign_extend gyroY_raw 16
      gyroZ := _sign_extend gyroZ_raw 16
      lat_1e7 := _sign_extend lat_raw 30
      lon_1e7 := _sign_extend lon_raw 30
      flags := SystemFlags.from_byte flags_byte
      radData0 := rad0
      radData1 := rad1
      radData2 := rad2
      radData3 := rad3 }

/-- Method `TelemetryDecoder._is_valid_packet` from decoder.py.  The two
`isinstance(..., int)` guards always hold in this model (the fields are
`Int` by construction) and are omitted. -/
def _is_valid_packet (pkt : TelemetryPacket) : Bool :=
  if pkt.pressPa < 0 ∨ pkt.pressPa ≥ (1 <<< 20 : Nat) then false
  else if |pkt.lat_1e7| > 90 * 10000000 then false
  else if |pkt.lon_1e7| > 180 * 10000000 then false
  else if |pkt.temp_cC| > 100000 then false
  else true

/-- Single-record decode with the spec's error taxonomy: structural decode
(`_decode_packet`), then the plausibility gate (`_is_valid_packet`), whose
rejection is the distinct `Implausible` failure (the
`decode_packet_with_log` path that logs "sanity checks failed" and
discards the packet). -/
def decodeOne (data : List Nat) : Except DecodeError TelemetryPacket :=
  match _decode_packet data with
  | .error e => .error e
  | .ok pkt => if _is_valid_packet pkt then .ok pkt else .error .implausibleRecord

/-- The per-record loop of `TelemetryDecoder.decode_file` from decoder.py,
applied to the file's bytes: files shorter than one record return an empty
list after a warning; otherwise `len(data) // 42` consecutive 42-byte
slices are decoded, appending each structurally valid and plausible packet
and skipping (with a logged warning) every record that raises or fails the
sanity checks. -/
def decode_file (data : List Nat) : List TelemetryPacket :=
  if data.length < PACKET_SIZE then []
  else
    (List.range (data.length / PACKET_SIZE)).foldl (fun packets i =>
      let block := (data.drop (i * PACKET_SIZE)).take PACKET_SIZE
      match _decode_packet block with
      | .ok pkt => if _is_valid_packet pkt then packets ++ [pkt] else packets
      | .error _ => packets) []

/-- Specification-side two's-complement reinterpretation (§4.2): if bit
`bits - 1` of the `bits`-wide value is set, subtract `2 ^ bits`. -/
def twosComp (v : Nat) (bits : Nat) : Int :=
  if v.testBit (bits - 1) then (v : Int) - 2 ^ bits else (v : Int)

/-- Constant `PACKET_SIZE_BYTES = 42` from test_decoder.py. -/
def PACKET_SIZE_BYTES : Nat := 42

/-- State of `BitWriter` from test_decoder.py (`buf`, `bit_pos`; `size_bits`
is derived). -/
structure BitWriter where
  buf : List Nat
  bit_pos : Nat
deriving DecidableEq

/-- Derived `self.size_bits = size_bytes * 8` from `BitWriter.__init__`. -/
def BitWriter.size_bits (w : BitWriter) : Nat := w.buf.length * 8

/-- Function `_to_twos_complement` from test_decoder.py: `value & ((1 << nbits) - 1)`,
i.e. reduction of the (possibly negative) integer modulo `2 ^ nbits`. -/
def _to_twos_complement (value : Int) (nbits : Nat) : Nat :=
  (value % ((2 : Int) ^ nbits)).toNat

/-- The while-loop of `BitWriter.write_bits`; as with `readLoop`, `fuel`
bounds the iteration count (each iteration writes at least one bit, so
`remaining` iterations suffice).  State: `buf`, `bit_pos`, `v`,
`remaining`. -/
def writeLoop : Nat → List Nat → Nat → Nat → Nat → List Nat × Nat
  | _, buf, bit_pos, _, 0 => (buf, bit_pos)
  | 0, buf, bit_pos, _, _ + 1 => (buf, bit_pos)
  | fuel + 1, buf, bit_pos, v, remaining + 1 =>
    let byte_idx := bit_pos / 8
    let bit_in_byte := bit_pos % 8
    let free := 8 - bit_in_byte
    let to_write := min free (remaining + 1)
    let mask := 2 ^ to_write - 1
    let chunk := v &&& mask
    let buf' := buf.set byte_idx ((buf.getD byte_idx 0) ||| ((chunk <<< bit_in_byte) &&& 0xFF))
    writeLoop fuel buf' (bit_pos + to_write) (v >>> to_write) (remaining + 1 - to_write)

/-- Method `BitWriter.write_bits` from test_decoder.py for `nbits ≥ 0`: bounds
check, mask of `value` to its low `nbits` bits (`value & ((1 << nbits) - 1)`
when `nbits < 64`, modelled as reduction mod `2 ^ nbits`; every call in the
generator has `nbits ≤ 30`), then the LSB-first write loop.  The raised
`ValueError` on overflow becomes an error value. -/
def BitWriter.write_bits (w : BitWriter) (value : Int) (nbits : Nat) : Except String BitWriter :=
  if nbits = 0 then .ok w
  else if w.bit_pos + nbits > w.size_bits then .error "Not enough space"
  else
    let v : Nat := if nbits < 64 then (value % ((2 : Int) ^ nbits)).toNat else value.toNat
    let r := writeLoop nbits w.buf w.bit_pos v nbits
    .ok ⟨r.1, r.2⟩

/-- The field values drawn (randomly) by `generate_test_packet` before
packing; the packing sequence itself is deterministic in these. -/
structure GenFields where
  time_ms : Nat
  temp_cC : Int
  pressPa : Nat
  magX : Int
  magY : Int
  magZ : Int
  accelX : Int
  accelY : Int
  accelZ : Int
  gyroX : Int
  gyroY : Int
  gyroZ : Int
  lat_1e7 : Int
  lon_1e7 : Int
  flags : Nat
  rad0 : Nat
  rad1 : Nat
  rad2 : Nat
  rad3 : Nat
deriving DecidableEq

/-- The packing sequence of `generate_test_packet` (test_decoder.py lines
108-145), with the randomly drawn field values as parameters: `time_ms`:24,
`temp_cC`:14 (two's complement), `pressPa`:20, then `mag`, `accel`, `gyro`
(nine 16-bit two's-complement writes), then `lat_1e7`:30, `lon_1e7`:30,
`flags`:8, `radData`:4×16 and 2 dummy bits. -/
def generate_test_packet (f : GenFields) : Except String (List Nat) := do
  let bw : BitWriter := ⟨List.replicate PACKET_SIZE_BYTES 0, 0⟩
  let bw ← bw.write_bits (f.time_ms : Int) 24
  let bw ← bw.write_bits (_to_twos_complement f.temp_cC 14 : Nat) 14
  let bw ← bw.write_bits ((f.pressPa &&& (2 ^ 20 - 1) : Nat) : Int) 20
  let bw ← bw.write_bits (_to_twos_complement f.magX 16 : Nat) 16
  let bw ← bw.write_bits (_to_twos_complement f.magY 16 : Nat) 16
  let bw ← bw.write_bits (_to_twos_complement f.magZ 16 : Nat) 16
  let bw ← bw.write_bits (_to_twos_complement f.accelX 16 : Nat) 16
  let bw ← bw.write_bits (_to_twos_complement f.accelY 16 : Nat) 16
  let bw ← bw.write_bits (_to_twos_complement f.accelZ 16 : Nat) 16
  let bw ← bw.write_bits (_to_twos_complement f.gyroX 16 : Nat) 16
  let bw ← bw.write_bits (_to_twos_complement f.gyroY 16 : Nat) 16
  let bw ← bw.write_bits (_to_twos_complement f.gyroZ 16 : Nat) 16
  let bw ← bw.write_bits (_to_twos_complement f.lat_1e7 30 : Nat) 30
  let bw ← bw.write_bits (_to_twos_complement f.lon_1e7 30 : Nat) 30
  let bw ← bw.write_bits ((f.flags &&& 0xFF : Nat) : Int) 8
  let bw ← bw.write_bits ((f.rad0 &&& 0xFFFF : Nat) : Int) 16
  let bw ← bw.write_bits ((f.rad1 &&& 0xFFFF : Nat) : Int) 16
  let bw ← bw.write_bits ((f.rad2 &&& 0xFFFF : Nat) : Int) 16
  let bw ← bw.write_bits ((f.rad3 &&& 0xFFFF : Nat) : Int) 16
  let bw ← bw.write_bits 0x0 2
  return bw.buf

instance exceptDecEq {ε α : Type} [DecidableEq ε] [DecidableEq α] :
    DecidableEq (Except ε α) := fun x y =>
  match x, y with
  | .error e, .error e' => decidable_of_iff (e = e') (by simp)
  | .error _, .ok _ => isFalse (by simp)
  | .ok _, .error _ => isFalse (by simp)
  | .ok a, .ok a' => decidable_of_iff (a = a') (by simp)

/-- The C2 failing input: every field zero except `magX = 1`. -/
def c2fields : GenFields :=
  { time_ms := 0, temp_cC := 0, pressPa := 0, magX := 1, magY := 0, magZ := 0,
    accelX := 0, accelY := 0, accelZ := 0, gyroX := 0, gyroY := 0, gyroZ := 0,
    lat_1e7 := 0, lon_1e7 := 0, flags := 0, rad0 := 0, rad1 := 0, rad2 := 0, rad3 := 0 }

/-- The merged time-settings dict of `FilterManager` (filters.py / config.py):
its only possible keys are `max_jump_ms` and `allow_wrap`. -/
structure TimeSettings where
  max_jump_ms : Option Int
  allow_wrap : Option Bool
deriving DecidableEq

/-- Test `not self.time_settings`: the dict is empty iff neither key is present. -/
def TimeSettings.isEmpty (s : TimeSettings) : Bool :=
  s.max_jump_ms.isNone && s.allow_wrap.isNone

/-- Method `FilterManager._passes_time_filter` from filters.py.  The guard
`if not self.time_settings or prev_time is None: return True` is split into
the `none` match arm and the `isEmpty` test; `float('inf')` as the default
of `max_jump_ms` is the `none` case of the comparison (never exceeded). -/
def _passes_time_filter (s : TimeSettings) (time_ms : Int) (prev_time : Option Int) : Bool :=
  match prev_time with
  | none => true
  | some prev =>
    if s.isEmpty then true
    else
      let time_diff := time_ms - prev
      let allow_wrap := s.allow_wrap.getD false
      let time_diff := if time_diff < 0 && allow_wrap then time_diff + ((1 <<< 24 : Nat) : Int)
        else time_diff
      let exceeds : Bool := match s.max_jump_ms with
        | some mj => time_diff > mj
        | none => false
      if exceeds then false
      else if time_diff < 0 && !allow_wrap then false
      else true

/-- The run-time configuration of `FilterManager.apply_filters` after
`_merge_config_settings`: the time settings, the channel-range stage as its
per-packet verdict (`_passes_channel_filter`, whose float comparisons none
of the checked claims depend on), and the parsed manual drop set. -/
structure FilterCfg where
  time_settings : TimeSettings
  channel_pass : TelemetryPacket → Bool
  manual_drops : Finset Int

/-- Loop `for idx, packet in enumerate(packets)` of
`FilterManager.apply_filters`: time filter, then channel filter, then
manual drop by enumeration index; `prev_time` is set to the packet's time
only when the packet is appended. -/
def apply_filters_go (cfg : FilterCfg) :
    List TelemetryPacket → Nat → Option Int → List TelemetryPacket
  | [], _, _ => []
  | packet :: rest, idx, prev_time =>
    if !(_passes_time_filter cfg.time_settings packet.time_ms prev_time) then
      apply_filters_go cfg rest (idx + 1) prev_time
    else if !(cfg.channel_pass packet) then
      apply_filters_go cfg rest (idx + 1) prev_time
    else if (idx : Int) ∈ cfg.manual_drops then
      apply_filters_go cfg rest (idx + 1) prev_time
    else
      packet :: apply_filters_go cfg rest (idx + 1) (some packet.time_ms)

/-- Method `FilterManager.apply_filters` from filters.py (the `if not packets`
early return coincides with the loop on `[]`). -/
def apply_filters (cfg : FilterCfg) (packets : List TelemetryPacket) : List TelemetryPacket :=
  apply_filters_go cfg packets 0 none

/-- Reference pipeline following §4.5's words: one pass over the packets
paired with their zero-based position in the original decoded sequence;
a packet survives iff it passes time, channel and manual stages, and the
`previousAcceptedTime` baseline advances only on acceptance. -/
def pipelineSpec (cfg : FilterCfg) :
    List (Nat × TelemetryPacket) → Option Int → List TelemetryPacket
  | [], _ => []
  | (i, packet) :: rest, prevAccepted =>
    if _passes_time_filter cfg.time_settings packet.time_ms prevAccepted = true
        ∧ cfg.channel_pass packet = true ∧ (i : Int) ∉ cfg.manual_drops then
      packet :: pipelineSpec cfg rest (some packet.time_ms)
    else
      pipelineSpec cfg rest prevAccepted

/-- The drop rule of the C3 claim, read literally: `Δ = t − prevAccepted`,
`2^24` added when `Δ < 0` and wrap is allowed, drop exactly when the
adjusted `Δ` exceeds `maxJumpMs` (unbounded when absent) or is negative
with wrap not allowed. -/
def timeDropSpec (max_jump_ms : Option Int) (allow_wrap : Bool) (t prev : Int) : Bool :=
  let time_diff := t - prev
  let time_diff := if time_diff < 0 && allow_wrap then time_diff + ((1 <<< 24 : Nat) : Int)
    else time_diff
  let exceeds : Bool := match max_jump_ms with
    | some mj => time_diff > mj
    | none => false
  exceeds || (time_diff < 0 && !allow_wrap)

/-- Modelled from the claim (C4): the flags string in MSB-to-LSB order,
character 0 the `start` flag (bit 7) down to character 7 the `err` flag
(bit 0). -/
def flagsStringMSB (f : SystemFlags) : String :=
  String.mk [flagChar f.start, flagChar f.eject, flagChar f.land, flagChar f.command,
    flagChar f.ping, flagChar f.ok, flagChar f.wait, flagChar f.err]

/-- The LSB-to-MSB flags string: character `k` is `'1'` iff bit `k` of the
flags byte is set (bit 0 = err first). -/
def flagsStringLSB (b : Nat) : String :=
  String.mk ((List.range 8).map fun k => if b.testBit k then '1' else '0')

/-- Python `str.split(sep)` for a one-character separator (`','` here):
splitting an empty string gives `[""]`, adjacent separators give empty
items. -/
def splitOnChar (sep : Char) : List Char → List (List Char)
  | [] => [[]]
  | c :: cs =>
    match splitOnChar sep cs with
    | [] => [[]]
    | t :: ts => if c = sep then [] :: t :: ts else (c :: t) :: ts

/-- Python `str.strip()`: drop whitespace from both ends. -/
def stripChars (cs : List Char) : List Char :=
  ((cs.dropWhile Char.isWhitespace).reverse.dropWhile Char.isWhitespace).reverse

/-- Python `item.split('-', 1)` when `'-' in item`: the part before the
first separator and everything after it. -/
def splitFirst (sep : Char) (cs : List Char) : List Char × List Char :=
  (cs.takeWhile (· ≠ sep), (cs.dropWhile (· ≠ sep)).drop 1)

/-- The decimal value of a digit string. -/
def digitsVal (cs : List Char) : Nat :=
  cs.foldl (fun a c => 10 * a + (c.toNat - 48)) 0

/-- Python `int(s)` on an already-stripped token, modelled for the shapes a
drop list uses: an optional sign followed by ASCII digits (`_` digit
grouping and non-ASCII digits are not modelled); anything else raises
`ValueError`, i.e. `none`. -/
def pyInt (cs : List Char) : Option Int :=
  match cs with
  | [] => none
  | c :: rest =>
    if c = '+' then
      if rest ≠ [] ∧ rest.all Char.isDigit then some (digitsVal rest) else none
    else if c = '-' then
      if rest ≠ [] ∧ rest.all Char.isDigit then some (-(digitsVal rest : Int)) else none
    else if (c :: rest).all Char.isDigit then some (digitsVal (c :: rest)) else none

/-- Loop body of `FilterManager._parse_packet_list` from filters.py: split on commas,
strip each item, skip empty items; an item containing `'-'` is split at its
first `'-'` into `start`/`end` and contributes `range(start, end + 1)`
(inclusive, empty when reversed); any other item contributes the single
parsed index; items whose `int()` parse fails are skipped with a warning. -/
def parseStep (drops : Finset Int) (item0 : List Char) : Finset Int :=
  let item := stripChars item0
  if item = [] then drops
  else if '-' ∈ item then
    match pyInt (stripChars (splitFirst '-' item).1),
        pyInt (stripChars (splitFirst '-' item).2) with
    | some s, some e => drops ∪ Finset.Icc s e
    | _, _ => drops
  else
    match pyInt item with
    | some v => insert v drops
    | none => drops

/-- The fold of `parseStep` over the comma-separated items. -/
def _parse_packet_list (drop_list : List Char) : Finset Int :=
  (splitOnChar ',' drop_list).foldl parseStep ∅

/-- A well-formed stripped drop-list token: a literal index (one or more
digits) or a range whose two parts around the first `'-'` are digit
strings. -/
def WFtoken (t : List Char) : Prop :=
  (t ≠ [] ∧ t.all Char.isDigit = true) ∨
  ('-' ∈ t ∧ (splitFirst '-' t).1 ≠ [] ∧ (splitFirst '-' t).1.all Char.isDigit = true ∧
    (splitFirst '-' t).2 ≠ [] ∧ (splitFirst '-' t).2.all Char.isDigit = true)

instance : DecidablePred WFtoken := fun t => by
  unfold WFtoken
  infer_instance

/-- The contribution of one stripped token according to the claim: a
literal token contributes that single index, a range token `a-b` every
position `a..b` inclusive. -/
def tokenSet (t : List Char) : Finset Int :=
  if t = [] then ∅
  else if '-' ∈ t then
    Finset.Icc (digitsVal (splitFirst '-' t).1 : Int) (digitsVal (splitFirst '-' t).2 : Int)
  else {(digitsVal t : Int)}

/-- The exclusion set as the claim describes it: the union over the
stripped tokens of their contributions. -/
def exclusionSetSpec (drop_list : List Char) : Finset Int :=
  (splitOnChar ',' drop_list).foldl (fun acc t0 => acc ∪ tokenSet (stripChars t0)) ∅

/-- A telemetry packet with the given time and all other fields zero. -/
def mkPacket (t : Int) : TelemetryPacket :=
  { time_ms := t, temp_cC := 0, pressPa := 0, magX := 0, magY := 0, magZ := 0,
    accelX := 0, accelY := 0, accelZ := 0, gyroX := 0, gyroY := 0, gyroZ := 0,
    lat_1e7 := 0, lon_1e7 := 0,
    flags := ⟨false, false, false, false, false, false, false, false⟩,
    radData0 := 0, radData1 := 0, radData2 := 0, radData3 := 0 }

theorem bytesVal_lt (data : List Nat) (hb : ∀ b ∈ data, b < 256) :
    bytesVal data < 2 ^ (8 * data.length) := by
  induction data with
  | nil => simp [bytesVal]
  | cons b bs ih =>
    have hb' : b < 256 := hb b (by simp)
    have ihs := ih (fun x hx => hb x (by simp [hx]))
    simp only [bytesVal, List.length_cons]
    have h8 : 8 * (bs.length + 1) = 8 * bs.length + 8 := by ring
    rw [h8, pow_add]
    have hmul : 256 * (bytesVal bs + 1) ≤ 256 * 2 ^ (8 * bs.length) :=
      Nat.mul_le_mul_left 256 ihs
    have h256 : (2 : Nat) ^ 8 = 256 := by norm_num
    rw [h256]
    omega

theorem bytesVal_take_add (q : Nat) (data : List Nat) :
    bytesVal data = bytesVal (data.take q) + 2 ^ (8 * q) * bytesVal (data.drop q) := by
  induction q generalizing data with
  | zero => simp [bytesVal]
  | succ q ih =>
    cases data with
    | nil => simp [bytesVal]
    | cons b bs =>
      simp only [List.take_succ_cons, List.drop_succ_cons, bytesVal]
      rw [ih bs]
      have h8 : 8 * (q + 1) = 8 * q + 8 := by ring
      have h256 : (2 : Nat) ^ 8 = 256 := by norm_num
      rw [h8, pow_add, h256]
      ring

theorem bytesVal_div_two_pow (data : List Nat) (hb : ∀ b ∈ data, b < 256) (q : Nat) :
    bytesVal data / 2 ^ (8 * q) = bytesVal (data.drop q) := by
  have hdecomp := bytesVal_take_add q data
  have htake : bytesVal (data.take q) < 2 ^ (8 * q) := by
    have h1 := bytesVal_lt (data.take q) (fun b hbmem => hb b (List.mem_of_mem_take hbmem))
    have h2 : 8 * (data.take q).length ≤ 8 * q := by
      have := List.length_take_le q data
      omega
    exact lt_of_lt_of_le h1 (Nat.pow_le_pow_right (by norm_num) h2)
  rw [hdecomp]
  rw [Nat.add_mul_div_left _ _ (Nat.pos_pow_of_pos _ (by norm_num))]
  rw [Nat.div_eq_of_lt htake]
  omega

theorem shiftLeft_lor_distrib (a b s : Nat) : (a ||| b) <<< s = a <<< s ||| b <<< s := by
  apply Nat.eq_of_testBit_eq
  intro j
  simp only [Nat.testBit_shiftLeft, Nat.testBit_lor]
  cases decide (s ≤ j) <;> simp

theorem lor_shiftLeft_eq_add (a b t : Nat) (h : a < 2 ^ t) :
    a ||| b <<< t = a + 2 ^ t * b := by
  have habove : ∀ j, t ≤ j → a.testBit j = false := by
    intro j hj
    exact Nat.testBit_lt_two_pow
      (lt_of_lt_of_le h (Nat.pow_le_pow_right (by norm_num) hj))
  have hmod : (a ||| b <<< t) % 2 ^ t = a := by
    apply Nat.eq_of_testBit_eq
    intro j
    rw [Nat.testBit_mod_two_pow]
    simp only [Nat.testBit_lor, Nat.testBit_shiftLeft]
    by_cases hj : j < t
    · have hns : ¬ t ≤ j := by omega
      simp [hj, hns]
    · simp [hj, habove j (by omega)]
  have hdiv : (a ||| b <<< t) / 2 ^ t = b := by
    apply Nat.eq_of_testBit_eq
    intro j
    rw [← Nat.shiftRight_eq_div_pow, Nat.testBit_shiftRight]
    simp only [Nat.testBit_lor, Nat.testBit_shiftLeft]
    have hle : t ≤ t + j := by omega
    simp [habove (t + j) hle, hle]
  calc a ||| b <<< t
      = (a ||| b <<< t) % 2 ^ t + 2 ^ t * ((a ||| b <<< t) / 2 ^ t) :=
        (Nat.mod_add_div _ _).symm
    _ = a + 2 ^ t * b := by rw [hmod, hdiv]

theorem field_lt (data : List Nat) (p w : Nat) : field data p w < 2 ^ w :=
  Nat.mod_lt _ (Nat.pos_pow_of_pos _ (by norm_num))

theorem field_split (data : List Nat) (p t n : Nat) (ht : t ≤ n) :
    field data p n = field data p t + 2 ^ t * field data (p + t) (n - t) := by
  unfold field
  have h2 : (2 : Nat) ^ n = 2 ^ t * 2 ^ (n - t) := by
    rw [← pow_add]
    congr 1
    omega
  rw [h2, Nat.mod_mul, Nat.div_div_eq_div_mul, ← pow_add]

theorem chunk_eq_field (data : List Nat) (hb : ∀ b ∈ data, b < 256) (p tk : Nat)
    (htk : tk ≤ 8 - p % 8) (hq : p / 8 < data.length) :
    (data.getD (p / 8) 0 >>> (p % 8)) &&& (2 ^ tk - 1) = field data p tk := by
  rw [Nat.and_pow_two_sub_one_eq_mod, Nat.shiftRight_eq_div_pow]
  unfold field
  have hr : p % 8 < 8 := Nat.mod_lt _ (by norm_num)
  have hp : p = 8 * (p / 8) + p % 8 := by omega
  have hdrop : data.drop (p / 8) = data.getD (p / 8) 0 :: data.drop (p / 8 + 1) := by
    rw [List.getD_eq_getElem data 0 hq]
    exact List.drop_eq_getElem_cons hq
  have h1 : bytesVal data / 2 ^ p
      = data.getD (p / 8) 0 / 2 ^ (p % 8) + 2 ^ (8 - p % 8) * bytesVal (data.drop (p / 8 + 1)) := by
    conv_lhs => rw [hp]
    rw [pow_add, ← Nat.div_div_eq_div_mul, bytesVal_div_two_pow data hb, hdrop]
    show (data.getD (p / 8) 0 + 256 * bytesVal (data.drop (p / 8 + 1))) / 2 ^ (p % 8) = _
    have h256 : (256 : Nat) = 2 ^ (p % 8) * 2 ^ (8 - p % 8) := by
      rw [← pow_add, show p % 8 + (8 - p % 8) = 8 from by omega]
      norm_num
    rw [h256, mul_assoc, Nat.add_mul_div_left _ _ (Nat.pos_pow_of_pos _ (by norm_num))]
  rw [h1]
  have hsplit : (2 : Nat) ^ (8 - p % 8) * bytesVal (data.drop (p / 8 + 1))
      = 2 ^ tk * (2 ^ (8 - p % 8 - tk) * bytesVal (data.drop (p / 8 + 1))) := by
    rw [← mul_assoc, ← pow_add]
    congr 2
    omega
  rw [hsplit, Nat.add_mul_mod_self_left]

theorem readLoop_eq (data : List Nat) (hb : ∀ b ∈ data, b < 256) :
    ∀ fuel remain p shift acc, remain ≤ fuel → p + remain ≤ 8 * data.length →
      readLoop data fuel p shift acc remain
        = (acc ||| field data p remain <<< shift, p + remain) := by
  intro fuel
  induction fuel with
  | zero =>
    intro remain p shift acc hfuel _
    have hz : remain = 0 := by omega
    subst hz
    simp [readLoop, field, Nat.mod_one, Nat.zero_shiftLeft, Nat.or_zero]
  | succ fuel ih =>
    intro remain p shift acc hfuel hbound
    match remain with
    | 0 => simp [readLoop, field, Nat.mod_one, Nat.zero_shiftLeft, Nat.or_zero]
    | remain + 1 =>
      simp only [readLoop]
      have hr : p % 8 < 8 := Nat.mod_lt _ (by norm_num)
      set tk := min (8 - p % 8) (remain + 1) with htk
      have htk1 : 1 ≤ tk := by omega
      have htkr : tk ≤ remain + 1 := by omega
      have htk8 : tk ≤ 8 - p % 8 := by omega
      have hq : p / 8 < data.length := by omega
      rw [ih (remain + 1 - tk) (p + tk) (shift + tk) _ (by omega) (by omega)]
      rw [chunk_eq_field data hb p tk htk8 hq]
      rw [show p + tk + (remain + 1 - tk) = p + (remain + 1) from by omega]
      congr 1
      rw [Nat.lor_assoc]
      congr 1
      rw [field_split data p tk (remain + 1) htkr]
      rw [show shift + tk = tk + shift from by omega, Nat.shiftLeft_add]
      rw [← shiftLeft_lor_distrib]
      rw [lor_shiftLeft_eq_add _ _ _ (field_lt data p tk)]

/-- A successful `read_bits` call: within bounds it returns the `n`-bit
LSB-first field at the cursor and advances the cursor by exactly `n`. -/
theorem read_bits_ok (data : List Nat) (hb : ∀ b ∈ data, b < 256) (p n : Nat)
    (h : p + n ≤ data.length * 8) :
    BitReader.read_bits ⟨data, p⟩ n = (.ok (field data p n), ⟨data, p + n⟩) := by
  unfold BitReader.read_bits
  by_cases hn : n = 0
  · subst hn
    simp [field, Nat.mod_one]
  · rw [if_neg hn]
    have hmax : ¬ (BitReader.bit_pos ⟨data, p⟩ + n > BitReader.max_bits ⟨data, p⟩) := by
      simp only [BitReader.max_bits]
      omega
    rw [if_neg hmax]
    have := readLoop_eq data hb n n p 0 0 (le_refl n) (by omega)
    simp only [this]
    simp

theorem readBitsE_ok (data : List Nat) (hb : ∀ b ∈ data, b < 256) (p n : Nat)
    (h : p + n ≤ data.length * 8) :
    BitReader.readBitsE ⟨data, p⟩ n = .ok (field data p n, ⟨data, p + n⟩) := by
  unfold BitReader.readBitsE
  rw [read_bits_ok data hb p n h]

theorem sign_extend_eq (v b : Nat) (hv : v < 2 ^ b) :
    _sign_extend v b = twosComp v b := by
  unfold _sign_extend twosComp
  simp only [Nat.one_shiftLeft]
  rw [Nat.and_pow_two_sub_one_eq_mod, Nat.mod_eq_of_lt hv, Nat.and_two_pow]
  have hpow : (2 : Nat) ^ (b - 1) ≠ 0 :=
    Nat.pos_iff_ne_zero.mp (Nat.pos_pow_of_pos _ (by norm_num))
  cases htb : v.testBit (b - 1) <;> simp [htb, hpow]

theorem sign_extend_field (data : List Nat) (p w : Nat) :
    _sign_extend (field data p w) w = twosComp (field data p w) w :=
  sign_extend_eq _ _ (field_lt data p w)

theorem from_byte_eq_testBit (b : Nat) :
    SystemFlags.from_byte b
      = ⟨b.testBit 0, b.testBit 1, b.testBit 2, b.testBit 3,
          b.testBit 4, b.testBit 5, b.testBit 6, b.testBit 7⟩ := by
  have h : ∀ (i m : Nat), m = 2 ^ i → (b &&& m != 0) = b.testBit i := by
    intro i m hm
    subst hm
    rw [Nat.and_two_pow]
    have hpow : (2 : Nat) ^ i ≠ 0 :=
      Nat.pos_iff_ne_zero.mp (Nat.pos_pow_of_pos _ (by norm_num))
    cases hi : b.testBit i <;> simp [hi, hpow]
  simp only [SystemFlags.from_byte, SystemFlags.mk.injEq]
  exact ⟨h 0 _ (by norm_num), h 1 _ (by norm_num), h 2 _ (by norm_num), h 3 _ (by norm_num),
    h 4 _ (by norm_num), h 5 _ (by norm_num), h 6 _ (by norm_num), h 7 _ (by norm_num)⟩

/-- C1: for every 42-byte record the decoder extracts the fields LSB-first
in the authoritative §4.2 order — `time_ms` 24u at bit 0, `temp_cC` 14s at
24, `pressPa` 20u at 38, `lat_1e7` 30s at 58, `lon_1e7` 30s at 88, two
discarded dummy bits at 118, the nine signed 16-bit IMU fields at 120..263,
the flags byte at 264 decoded by direct bit tests (bit 0 = err … bit 7 =
start), and `radData0..3` 16u at 272..335 — sign-extending exactly the
signed fields. -/
theorem decode_packet_layout (data : List Nat) (hlen : data.length = 42)
    (hb : ∀ b ∈ data, b < 256) :
    _decode_packet data = .ok {
      time_ms := (field data 0 24 : Int)
      temp_cC := twosComp (field data 24 14) 14
      pressPa := (field data 38 20 : Int)
      magX := twosComp (field data 120 16) 16
      magY := twosComp (field data 136 16) 16
      magZ := twosComp (field data 152 16) 16
      accelX := twosComp (field data 168 16) 16
      accelY := twosComp (field data 184 16) 16
      accelZ := twosComp (field data 200 16) 16
      gyroX := twosComp (field data 216 16) 16
      gyroY := twosComp (field data 232 16) 16
      gyroZ := twosComp (field data 248 16) 16
      lat_1e7 := twosComp (field data 58 30) 30
      lon_1e7 := twosComp (field data 88 30) 30
      flags := ⟨(field data 264 8).testBit 0, (field data 264 8).testBit 1,
        (field data 264 8).testBit 2, (field data 264 8).testBit 3,
        (field data 264 8).testBit 4, (field data 264 8).testBit 5,
        (field data 264 8).testBit 6, (field data 264 8).testBit 7⟩
      radData0 := (field data 272 16 : Int)
      radData1 := (field data 288 16 : Int)
      radData2 := (field data 304 16 : Int)
      radData3 := (field data 320 16 : Int) } := by
  unfold _decode_packet
  rw [if_neg (by simp [hlen, PACKET_SIZE])]
  simp [readBitsE_ok data hb, hlen, sign_extend_field, from_byte_eq_testBit,
    Except.bind, PACKET_SIZE]

theorem decode_packet_layout_witness :
    ((List.range 42).map (fun i => (7 * i + 3) % 256)).length = 42 ∧
    _decode_packet ((List.range 42).map (fun i => (7 * i + 3) % 256)) = .ok {
      time_ms := (field ((List.range 42).map (fun i => (7 * i + 3) % 256)) 0 24 : Int)
      temp_cC := twosComp (field ((List.range 42).map (fun i => (7 * i + 3) % 256)) 24 14) 14
      pressPa := (field ((List.range 42).map (fun i => (7 * i + 3) % 256)) 38 20 : Int)
      magX := twosComp (field ((List.range 42).map (fun i => (7 * i + 3) % 256)) 120 16) 16
      magY := twosComp (field ((List.range 42).map (fun i => (7 * i + 3) % 256)) 136 16) 16
      magZ := twosComp (field ((List.range 42).map (fun i => (7 * i + 3) % 256)) 152 16) 16
      accelX := twosComp (field ((List.range 42).map (fun i => (7 * i + 3) % 256)) 168 16) 16
      accelY := twosComp (field ((List.range 42).map (fun i => (7 * i + 3) % 256)) 184 16) 16
      accelZ := twosComp (field ((List.range 42).map (fun i => (7 * i + 3) % 256)) 200 16) 16
      gyroX := twosComp (field ((List.range 42).map (fun i => (7 * i + 3) % 256)) 216 16) 16
      gyroY := twosComp (field ((List.range 42).map (fun i => (7 * i + 3) % 256)) 232 16) 16
      gyroZ := twosComp (field ((List.range 42).map (fun i => (7 * i + 3) % 256)) 248 16) 16
      lat_1e7 := twosComp (field ((List.range 42).map (fun i => (7 * i + 3) % 256)) 58 30) 30
      lon_1e7 := twosComp (field ((List.range 42).map (fun i => (7 * i + 3) % 256)) 88 30) 30
      flags := ⟨(field ((List.range 42).map (fun i => (7 * i + 3) % 256)) 264 8).testBit 0,
        (field ((List.range 42).map (fun i => (7 * i + 3) % 256)) 264 8).testBit 1,
        (field ((List.range 42).map (fun i => (7 * i + 3) % 256)) 264 8).testBit 2,
        (field ((List.range 42).map (fun i => (7 * i + 3) % 256)) 264 8).testBit 3,
        (field ((List.range 42).map (fun i => (7 * i + 3) % 256)) 264 8).testBit 4,
        (field ((List.range 42).map (fun i => (7 * i + 3) % 256)) 264 8).testBit 5,
        (field ((List.range 42).map (fun i => (7 * i + 3) % 256)) 264 8).testBit 6,
        (field ((List.range 42).map (fun i => (7 * i + 3) % 256)) 264 8).testBit 7⟩
      radData0 := (field ((List.range 42).map (fun i => (7 * i + 3) % 256)) 272 16 : Int)
      radData1 := (field ((List.range 42).map (fun i => (7 * i + 3) % 256)) 288 16 : Int)
      radData2 := (field ((List.range 42).map (fun i => (7 * i + 3) % 256)) 304 16 : Int)
      radData3 := (field ((List.range 42).map (fun i => (7 * i + 3) % 256)) 320 16 : Int) } :=
  ⟨by decide, decode_packet_layout _ (by decide) (by decide)⟩

/-- C6: for every reachable `BitReader` state and every `n ≥ 0`, if fewer
than `n` bits remain then `read_bits n` fails and leaves the reader (cursor
and buffer) unchanged, and if at least `n` bits remain it never fails. -/
theorem read_bits_out_of_range (r : BitReader) (n : Nat)
    (hinv : r.bit_pos ≤ r.data.length * 8) :
    (r.bits_left < (n : Int) →
      r.read_bits n = (.error "Not enough bits", r)) ∧
    ((n : Int) ≤ r.bits_left → ∃ v r', r.read_bits n = (.ok v, r')) := by
  constructor
  · intro hlt
    have hn : n ≠ 0 := by
      intro h0
      subst h0
      simp only [BitReader.bits_left, BitReader.max_bits] at hlt
      omega
    have hgt : r.bit_pos + n > r.max_bits := by
      simp only [BitReader.bits_left, BitReader.max_bits] at hlt ⊢
      omega
    unfold BitReader.read_bits
    rw [if_neg hn, if_pos hgt]
  · intro hle
    have hbound : r.bit_pos + n ≤ r.max_bits := by
      simp only [BitReader.bits_left, BitReader.max_bits] at hle ⊢
      omega
    unfold BitReader.read_bits
    by_cases hn : n = 0
    · subst hn
      exact ⟨0, r, by simp⟩
    · rw [if_neg hn, if_neg (by omega)]
      exact ⟨_, _, rfl⟩

theorem read_bits_out_of_range_witness :
    BitReader.read_bits ⟨[5], 0⟩ 9 = (.error "Not enough bits", ⟨[5], 0⟩) :=
  (read_bits_out_of_range ⟨[5], 0⟩ 9 (by decide)).1 (by decide)

/-- C7: on any buffer, reading `n1` bits and then `n2` bits from the same
starting position yields values with `v1 + v2 * 2^n1` equal to the value of
a single `read_bits (n1+n2)` call, and every call advances the cursor (and
shrinks `bits_left`) by exactly its bit count. -/
theorem read_bits_split_additive (data : List Nat) (hb : ∀ b ∈ data, b < 256)
    (p n1 n2 : Nat) (h : p + n1 + n2 ≤ data.length * 8) :
    ∃ v1 v2 v12,
      BitReader.read_bits ⟨data, p⟩ n1 = (.ok v1, ⟨data, p + n1⟩) ∧
      BitReader.read_bits ⟨data, p + n1⟩ n2 = (.ok v2, ⟨data, p + n1 + n2⟩) ∧
      BitReader.read_bits ⟨data, p⟩ (n1 + n2) = (.ok v12, ⟨data, p + (n1 + n2)⟩) ∧
      v1 + v2 * 2 ^ n1 = v12 ∧
      BitReader.bits_left ⟨data, p + n1⟩ = BitReader.bits_left ⟨data, p⟩ - n1 ∧
      BitReader.bits_left ⟨data, p + n1 + n2⟩ = BitReader.bits_left ⟨data, p + n1⟩ - n2 := by
    refine ⟨field data p n1, field data (p + n1) n2, field data p (n1 + n2),
      read_bits_ok data hb p n1 (by omega),
      read_bits_ok data hb (p + n1) n2 (by omega),
      read_bits_ok data hb p (n1 + n2) (by omega), ?_, ?_, ?_⟩
    · have hs := field_split data p n1 (n1 + n2) (by omega)
      rw [show n1 + n2 - n1 = n2 from by omega] at hs
      rw [hs]
      ring
    · simp only [BitReader.bits_left, BitReader.max_bits]
      push_cast
      ring
    · simp only [BitReader.bits_left, BitReader.max_bits]
      push_cast
      ring

theorem read_bits_split_additive_witness :
    ∃ v1 v2 v12,
      BitReader.read_bits ⟨[0xAB, 0xCD, 0xEF], 3⟩ 7 = (.ok v1, ⟨[0xAB, 0xCD, 0xEF], 3 + 7⟩) ∧
      BitReader.read_bits ⟨[0xAB, 0xCD, 0xEF], 3 + 7⟩ 9
        = (.ok v2, ⟨[0xAB, 0xCD, 0xEF], 3 + 7 + 9⟩) ∧
      BitReader.read_bits ⟨[0xAB, 0xCD, 0xEF], 3⟩ (7 + 9)
        = (.ok v12, ⟨[0xAB, 0xCD, 0xEF], 3 + (7 + 9)⟩) ∧
      v1 + v2 * 2 ^ 7 = v12 ∧
      BitReader.bits_left ⟨[0xAB, 0xCD, 0xEF], 3 + 7⟩
        = BitReader.bits_left ⟨[0xAB, 0xCD, 0xEF], 3⟩ - 7 ∧
      BitReader.bits_left ⟨[0xAB, 0xCD, 0xEF], 3 + 7 + 9⟩
        = BitReader.bits_left ⟨[0xAB, 0xCD, 0xEF], 3 + 7⟩ - 9 :=
  read_bits_split_additive [0xAB, 0xCD, 0xEF] (by decide) 3 7 9 (by decide)

theorem twosComp_bounds (v c : Nat) (hv : v < 2 ^ (c + 1)) :
    -(2 ^ c : Int) ≤ twosComp v (c + 1) ∧ twosComp v (c + 1) < 2 ^ c := by
  unfold twosComp
  simp only [Nat.add_sub_cancel]
  have hvI : (v : Int) < 2 ^ c * 2 := by
    have h2 : (2 : Nat) ^ (c + 1) = 2 ^ c * 2 := by ring
    rw [h2] at hv
    exact_mod_cast hv
  have h2I : (2 : Int) ^ (c + 1) = 2 ^ c * 2 := by ring
  by_cases h : v.testBit c
  · have hge : 2 ^ c ≤ v := Nat.testBit_implies_ge h
    have hgeI : (2 ^ c : Int) ≤ (v : Int) := by exact_mod_cast hge
    rw [if_pos h, h2I]
    constructor <;> linarith
  · have hlt : v < 2 ^ c := by
      by_contra hge
      push_neg at hge
      have hdiv : v / 2 ^ c = 1 := by
        apply Nat.div_eq_of_lt_le
        · simpa using hge
        · have h2 : (2 : Nat) ^ (c + 1) = 2 ^ c * 2 := by ring
          rw [h2] at hv
          omega
      have htrue : v.testBit c = true := by
        rw [Nat.testBit_to_div_mod, hdiv]
        decide
      exact absurd htrue (by simp [h])
    have hltI : (v : Int) < 2 ^ c := by exact_mod_cast hlt
    rw [if_neg h]
    constructor
    · have : (0 : Int) ≤ v := Int.natCast_nonneg v
      have hpos : (0 : Int) < 2 ^ c := by positivity
      linarith
    · exact hltI

theorem is_valid_iff (p : TelemetryPacket) :
    _is_valid_packet p = false ↔
      (p.pressPa < 0 ∨ ((1 <<< 20 : Nat) : Int) ≤ p.pressPa ∨
        90 * 10000000 < |p.lat_1e7| ∨ 180 * 10000000 < |p.lon_1e7| ∨
        100000 < |p.temp_cC|) := by
  unfold _is_valid_packet
  split_ifs with h1 h2 h3 h4 <;> simp <;> push_neg at * <;> tauto

theorem valid_of_decoded (data : List Nat) (hlen : data.length = 42)
    (hb : ∀ b ∈ data, b < 256) :
    ∀ p, _decode_packet data = .ok p → _is_valid_packet p = true := by
  intro p hp
  rw [decode_packet_layout data hlen hb] at hp
  have hp' := (Except.ok.injEq _ _).mp hp
  subst hp'
  have hlat := twosComp_bounds (field data 58 30) 29 (field_lt data 58 30)
  have hlon := twosComp_bounds (field data 88 30) 29 (field_lt data 88 30)
  have htemp := twosComp_bounds (field data 24 14) 13 (field_lt data 24 14)
  norm_num at hlat hlon htemp
  have hpress : (field data 38 20 : Int) < 2 ^ 20 := by exact_mod_cast field_lt data 38 20
  have hpress0 : (0 : Int) ≤ (field data 38 20 : Int) := Int.natCast_nonneg _
  cases hval : _is_valid_packet _ with
  | true => rfl
  | false =>
    exfalso
    have hdisj := (is_valid_iff _).mp hval
    have hshift : ((1 <<< 20 : Nat) : Int) = 2 ^ 20 := by norm_num [Nat.one_shiftLeft]
    simp only [hshift] at hdisj
    rcases hdisj with h | h | h | h | h
    · linarith
    · linarith
    · have habs : |twosComp (field data 58 30) 30| ≤ 536870912 :=
        abs_le.mpr ⟨hlat.1, le_of_lt hlat.2⟩
      linarith
    · have habs : |twosComp (field data 88 30) 30| ≤ 536870912 :=
        abs_le.mpr ⟨hlon.1, le_of_lt hlon.2⟩
      linarith
    · have habs : |twosComp (field data 24 14) 14| ≤ 8192 :=
        abs_le.mpr ⟨htemp.1, le_of_lt htemp.2⟩
      linarith

/-- C5: single-record decode fails with `WrongLength` exactly when the
input is not 42 bytes; a structurally decoded record failing a plausibility
bound is rejected as the distinct `Implausible` error with the packet
discarded unmodified; and every 42-byte record in fact yields a packet
(the decoded ranges — 14-bit temperature, 30-bit coordinates, 20-bit
pressure — always satisfy the plausibility bounds). -/
theorem decode_error_taxonomy (data : List Nat) (hb : ∀ b ∈ data, b < 256) :
    (decodeOne data = .error .wrongLength ↔ data.length ≠ 42) ∧
    (∀ p, _decode_packet data = .ok p →
      decodeOne data = if _is_valid_packet p then .ok p else .error .implausibleRecord) ∧
    (∀ q : TelemetryPacket, _is_valid_packet q = false ↔
      (q.pressPa < 0 ∨ ((1 <<< 20 : Nat) : Int) ≤ q.pressPa ∨
        900000000 < |q.lat_1e7| ∨ 1800000000 < |q.lon_1e7| ∨
        100000 < |q.temp_cC|)) ∧
    (data.length = 42 → ∃ p, decodeOne data = .ok p) := by
  refine ⟨⟨?_, ?_⟩, ?_, ?_, ?_⟩
  · intro h
    intro hcontra
    have hdec := decode_packet_layout data hcontra hb
    have hval := valid_of_decoded data hcontra hb _ hdec
    unfold decodeOne at h
    simp only [hdec] at h
    rw [if_pos hval] at h
    exact Except.noConfusion h
  · intro hne
    have herr : _decode_packet data = .error .wrongLength := by
      unfold _decode_packet
      rw [if_pos (by simpa [PACKET_SIZE] using hne)]
    unfold decodeOne
    simp only [herr]
  · intro p hp
    unfold decodeOne
    simp only [hp]
  · intro q
    rw [is_valid_iff q]
    norm_num
  · intro hlen
    have hdec := decode_packet_layout data hlen hb
    have hval := valid_of_decoded data hlen hb _ hdec
    cases hone : decodeOne data with
    | ok p => exact ⟨p, rfl⟩
    | error e =>
      exfalso
      unfold decodeOne at hone
      simp only [hdec] at hone
      rw [if_pos hval] at hone
      exact Except.noConfusion hone

theorem decode_error_taxonomy_witness :
    (decodeOne (List.replicate 42 7) = .error .wrongLength ↔
      (List.replicate 42 7).length ≠ 42) ∧
    (∀ p, _decode_packet (List.replicate 42 7) = .ok p →
      decodeOne (List.replicate 42 7)
        = if _is_valid_packet p then .ok p else .error .implausibleRecord) ∧
    (∀ q : TelemetryPacket, _is_valid_packet q = false ↔
      (q.pressPa < 0 ∨ ((1 <<< 20 : Nat) : Int) ≤ q.pressPa ∨
        900000000 < |q.lat_1e7| ∨ 1800000000 < |q.lon_1e7| ∨
        100000 < |q.temp_cC|)) ∧
    ((List.replicate 42 7).length = 42 → ∃ p, decodeOne (List.replicate 42 7) = .ok p) :=
  decode_error_taxonomy (List.replicate 42 7) (by decide)

/-- C2 (code bug): the generator packs `magX` at bit 58 (mag/accel/gyro
before lat/lon, dummy bits last) while the decoder reads `lat_1e7` at bit
58 (lat/lon/dummy before mag/accel/gyro), so encode-then-decode does not
reproduce the in-range input `magX = 1`, `lat_1e7 = 0`: the decoder returns
`magX = 0`, `lat_1e7 = 1`. -/
theorem generator_decoder_mismatch :
    generate_test_packet c2fields = .ok ((List.replicate 42 0).set 7 4) ∧
    (_decode_packet ((List.replicate 42 0).set 7 4)).map
      (fun pkt => (pkt.magX, pkt.lat_1e7)) = .ok ((0 : Int), (1 : Int)) ∧
    c2fields.magX = 1 ∧ c2fields.lat_1e7 = 0 := by
  decide

theorem decode_step_eq (block : List Nat) (packets : List TelemetryPacket) :
    (match _decode_packet block with
      | .ok pkt => if _is_valid_packet pkt then packets ++ [pkt] else packets
      | .error _ => packets)
      = packets ++ ((decodeOne block).toOption).toList := by
  cases h : _decode_packet block with
  | error e => simp [decodeOne, h, Except.toOption]
  | ok pkt => cases hv : _is_valid_packet pkt <;> simp [decodeOne, h, hv, Except.toOption]

theorem foldl_append_toList {α β : Type} (g : α → Option β) :
    ∀ (l : List α) (acc : List β),
      l.foldl (fun acc i => acc ++ (g i).toList) acc = acc ++ l.filterMap g := by
  intro l
  induction l with
  | nil => simp
  | cons x xs ih =>
    intro acc
    simp only [List.foldl_cons, List.filterMap_cons]
    cases h : g x <;> simp [h, ih]

theorem decode_file_eq (data : List Nat) :
    decode_file data
      = ((List.range (data.length / PACKET_SIZE)).map
          (fun i => (data.drop (i * PACKET_SIZE)).take PACKET_SIZE)).filterMap
          (fun block => (decodeOne block).toOption) := by
  unfold decode_file
  rw [List.filterMap_map]
  by_cases hlen : data.length < PACKET_SIZE
  · rw [if_pos hlen]
    have h0 : data.length / PACKET_SIZE = 0 := Nat.div_eq_of_lt hlen
    simp [h0]
  · rw [if_neg hlen]
    have hbody : (fun (packets : List TelemetryPacket) (i : Nat) =>
        match _decode_packet ((data.drop (i * PACKET_SIZE)).take PACKET_SIZE) with
        | .ok pkt => if _is_valid_packet pkt then packets ++ [pkt] else packets
        | .error _ => packets)
        = (fun packets i =>
            packets ++ ((decodeOne ((data.drop (i * PACKET_SIZE)).take PACKET_SIZE)).toOption).toList) := by
      funext packets i
      exact decode_step_eq _ packets
    rw [hbody, foldl_append_toList (fun i =>
      (decodeOne ((data.drop (i * PACKET_SIZE)).take PACKET_SIZE)).toOption)]
    rfl

theorem block_length (data : List Nat) (i : Nat) (hi : i < data.length / PACKET_SIZE) :
    ((data.drop (i * PACKET_SIZE)).take PACKET_SIZE).length = 42 := by
  rw [List.length_take, List.length_drop]
  have hmul : (i + 1) * PACKET_SIZE ≤ data.length := by
    have := (Nat.le_div_iff_mul_le (by decide : 0 < PACKET_SIZE)).mp hi
    simpa [PACKET_SIZE] using this
  simp only [PACKET_SIZE] at hmul ⊢
  omega

theorem decodeOne_block_ok (data : List Nat) (hb : ∀ b ∈ data, b < 256) (i : Nat)
    (hi : i < data.length / PACKET_SIZE) :
    ∃ p, decodeOne ((data.drop (i * PACKET_SIZE)).take PACKET_SIZE) = .ok p := by
  set block := (data.drop (i * PACKET_SIZE)).take PACKET_SIZE with hblock
  have hlen : block.length = 42 := block_length data i hi
  have hbb : ∀ b ∈ block, b < 256 := fun b hbm =>
    hb b (List.mem_of_mem_drop (List.mem_of_mem_take hbm))
  have hdec := decode_packet_layout block hlen hbb
  have hval := valid_of_decoded block hlen hbb _ hdec
  cases hone : decodeOne block with
  | ok p => exact ⟨p, rfl⟩
  | error e =>
    exfalso
    unfold decodeOne at hone
    simp only [hdec] at hone
    rw [if_pos hval] at hone
    exact Except.noConfusion hone

/-- C8: on a buffer whose length is a multiple of 42, batch decode slices
it into consecutive non-overlapping 42-byte windows in order, decodes each
independently, drops failing records while continuing (so the output is
exactly the per-window successes in input order, with gaps), and never
aborts; moreover every full window decodes to a packet here. -/
theorem batch_decode_aligned (data : List Nat) (hb : ∀ b ∈ data, b < 256)
    (hmul : data.length % 42 = 0) :
    decode_file data
      = ((List.range (data.length / PACKET_SIZE)).map
          (fun i => (data.drop (i * PACKET_SIZE)).take PACKET_SIZE)).filterMap
          (fun block => (decodeOne block).toOption) ∧
    ∀ i, i < data.length / PACKET_SIZE →
      ∃ p, decodeOne ((data.drop (i * PACKET_SIZE)).take PACKET_SIZE) = .ok p :=
  ⟨decode_file_eq data, fun i hi => decodeOne_block_ok data hb i hi⟩

theorem batch_decode_aligned_witness :
    decode_file (List.replicate 84 3)
      = ((List.range ((List.replicate 84 3 : List Nat).length / PACKET_SIZE)).map
          (fun i => ((List.replicate 84 3 : List Nat).drop (i * PACKET_SIZE)).take PACKET_SIZE)).filterMap
          (fun block => (decodeOne block).toOption) ∧
    ∀ i, i < (List.replicate 84 3 : List Nat).length / PACKET_SIZE →
      ∃ p, decodeOne (((List.replicate 84 3 : List Nat).drop (i * PACKET_SIZE)).take PACKET_SIZE)
        = .ok p :=
  batch_decode_aligned (List.replicate 84 3) (by decide) (by decide)

/-- C10: for every byte buffer, batch decode processes exactly
`⌊len / 42⌋` records and never raises: a buffer shorter than 42 bytes
yields the empty packet list, and trailing bytes beyond the last complete
42-byte record are silently ignored (decoding the truncated buffer gives
the same output). -/
theorem batch_decode_arbitrary_length (data : List Nat) :
    decode_file data
      = ((List.range (data.length / PACKET_SIZE)).map
          (fun i => (data.drop (i * PACKET_SIZE)).take PACKET_SIZE)).filterMap
          (fun block => (decodeOne block).toOption) ∧
    (data.length < 42 → decode_file data = []) ∧
    decode_file data = decode_file (data.take (PACKET_SIZE * (data.length / PACKET_SIZE))) := by
  refine ⟨decode_file_eq data, ?_, ?_⟩
  · intro hlt
    unfold decode_file
    rw [if_pos (by simpa [PACKET_SIZE] using hlt)]
  · set M := PACKET_SIZE * (data.length / PACKET_SIZE) with hM
    have hMle : M ≤ data.length := Nat.mul_div_le data.length PACKET_SIZE
    have hlenM : (data.take M).length = M := by
      rw [List.length_take]
      omega
    have hcount : (data.take M).length / PACKET_SIZE = data.length / PACKET_SIZE := by
      rw [hlenM, hM, Nat.mul_div_cancel_left _ (by decide : 0 < PACKET_SIZE)]
    rw [decode_file_eq data, decode_file_eq (data.take M), hcount]
    congr 1
    apply List.map_congr_left
    intro i hi
    have hiR : i < data.length / PACKET_SIZE := List.mem_range.mp hi
    have hPSle : PACKET_SIZE ≤ M - i * PACKET_SIZE := by
      have h1 : (i + 1) * PACKET_SIZE ≤ M := by
        rw [hM, Nat.mul_comm PACKET_SIZE]
        exact Nat.mul_le_mul_right _ hiR
      simp only [PACKET_SIZE] at h1 ⊢
      omega
    conv_rhs => rw [List.drop_take, List.take_take]
    rw [Nat.min_eq_left hPSle]

theorem digit_not_ws (c : Char) (h : c.isDigit = true) : c.isWhitespace = false := by
  by_cases h1 : c = ' '
  · subst h1
    exact absurd h (by decide)
  · by_cases h2 : c = '\t'
    · subst h2
      exact absurd h (by decide)
    · by_cases h3 : c = '\r'
      · subst h3
        exact absurd h (by decide)
      · by_cases h4 : c = '\n'
        · subst h4
          exact absurd h (by decide)
        · simp [Char.isWhitespace, h1, h2, h3, h4]

theorem dropWhile_ws_eq_self (l : List Char) (h : ∀ c ∈ l, c.isWhitespace = false) :
    l.dropWhile Char.isWhitespace = l := by
  cases l with
  | nil => rfl
  | cons c cs =>
    rw [List.dropWhile_cons, if_neg (by simp [h c (List.mem_cons_self c cs)])]

theorem stripChars_of_digits (t : List Char) (h : t.all Char.isDigit = true) :
    stripChars t = t := by
  have hws : ∀ c ∈ t, c.isWhitespace = false := fun c hc =>
    digit_not_ws c (List.all_eq_true.mp h c hc)
  unfold stripChars
  rw [dropWhile_ws_eq_self t hws,
    dropWhile_ws_eq_self t.reverse (fun c hc => hws c (List.mem_reverse.mp hc)),
    List.reverse_reverse]

theorem pyInt_of_digits (t : List Char) (hne : t ≠ []) (h : t.all Char.isDigit = true) :
    pyInt t = some (digitsVal t : Int) := by
  cases t with
  | nil => exact absurd rfl hne
  | cons c cs =>
    have hc : c.isDigit = true := by
      have := List.all_eq_true.mp h c (List.mem_cons_self c cs)
      exact this
    have hplus : c ≠ '+' := by
      intro hcp
      subst hcp
      exact absurd hc (by decide)
    have hminus : c ≠ '-' := by
      intro hcm
      subst hcm
      exact absurd hc (by decide)
    simp only [pyInt]
    rw [if_neg hplus, if_neg hminus, if_pos h]

theorem not_dash_of_digits (t : List Char) (h : t.all Char.isDigit = true) : '-' ∉ t := by
  intro hmem
  have := List.all_eq_true.mp h '-' hmem
  exact absurd this (by decide)

theorem parse_step_eq (drops : Finset Int) (t0 : List Char)
    (h : stripChars t0 = [] ∨ WFtoken (stripChars t0)) :
    parseStep drops t0 = drops ∪ tokenSet (stripChars t0) := by
  unfold parseStep tokenSet
  rcases h with h | h
  · simp [h]
  · rcases h with ⟨hne, hdig⟩ | ⟨hmem, h1ne, h1dig, h2ne, h2dig⟩
    · have hnd : '-' ∉ stripChars t0 := not_dash_of_digits _ hdig
      rw [if_neg hne, if_neg hnd, if_neg hne, if_neg hnd,
        pyInt_of_digits _ hne hdig]
      show insert (digitsVal (stripChars t0) : Int) drops
        = drops ∪ {(digitsVal (stripChars t0) : Int)}
      rw [Finset.insert_eq, Finset.union_comm]
    · have hne : stripChars t0 ≠ [] := by
        intro h0
        rw [h0] at hmem
        exact absurd hmem (List.not_mem_nil _)
      rw [if_neg hne, if_pos hmem, if_neg hne, if_pos hmem,
        stripChars_of_digits _ h1dig, stripChars_of_digits _ h2dig,
        pyInt_of_digits _ h1ne h1dig, pyInt_of_digits _ h2ne h2dig]

theorem parse_fold_eq :
    ∀ (l : List (List Char)),
      (∀ t0 ∈ l, stripChars t0 = [] ∨ WFtoken (stripChars t0)) →
      ∀ (drops : Finset Int),
        l.foldl parseStep drops
          = l.foldl (fun acc t0 => acc ∪ tokenSet (stripChars t0)) drops := by
  intro l
  induction l with
  | nil => intro _ drops; rfl
  | cons x xs ih =>
    intro hwf drops
    simp only [List.foldl_cons]
    rw [parse_step_eq drops x (hwf x (List.mem_cons_self x xs))]
    exact ih (fun t ht => hwf t (List.mem_cons_of_mem x ht)) _

theorem parse_eq_spec (drop_list : List Char)
    (hwf : ∀ t0 ∈ splitOnChar ',' drop_list,
      stripChars t0 = [] ∨ WFtoken (stripChars t0)) :
    _parse_packet_list drop_list = exclusionSetSpec drop_list := by
  unfold _parse_packet_list exclusionSetSpec
  exact parse_fold_eq _ hwf ∅

theorem apply_filters_go_eq (cfg : FilterCfg) :
    ∀ (l : List TelemetryPacket) (idx : Nat) (prev : Option Int),
      apply_filters_go cfg l idx prev = pipelineSpec cfg (l.enumFrom idx) prev := by
  intro l
  induction l with
  | nil => intro idx prev; rfl
  | cons p rest ih =>
    intro idx prev
    show apply_filters_go cfg (p :: rest) idx prev
      = pipelineSpec cfg ((idx, p) :: rest.enumFrom (idx + 1)) prev
    unfold apply_filters_go pipelineSpec
    cases ht : _passes_time_filter cfg.time_settings p.time_ms prev with
    | false => simp [ht, ih]
    | true =>
      cases hc : cfg.channel_pass p with
      | false => simp [ht, hc, ih]
      | true =>
        by_cases hm : (idx : Int) ∈ cfg.manual_drops
        · simp [ht, hc, hm, ih]
        · simp [ht, hc, hm, ih]

theorem apply_filters_go_sublist (cfg : FilterCfg) :
    ∀ (l : List TelemetryPacket) (idx : Nat) (prev : Option Int),
      (apply_filters_go cfg l idx prev).Sublist l := by
  intro l
  induction l with
  | nil => intro idx prev; simp [apply_filters_go]
  | cons p rest ih =>
    intro idx prev
    unfold apply_filters_go
    split_ifs with h1 h2 h3
    · exact (ih _ _).cons _
    · exact (ih _ _).cons _
    · exact (ih _ _).cons _
    · exact (ih _ _).cons₂ _

theorem ite_ite_eq_not_or (e n : Bool) :
    (if e = true then false else if n = true then false else true) = !(e || n) := by
  cases e <;> cases n <;> rfl

theorem pass_eq_not_drop (s : TimeSettings) (t prev : Int) (hne : s.isEmpty = false) :
    _passes_time_filter s t (some prev)
      = !(timeDropSpec s.max_jump_ms (s.allow_wrap.getD false) t prev) := by
  simp only [_passes_time_filter, timeDropSpec]
  rw [if_neg (by simp [hne])]
  exact ite_ite_eq_not_or _ _

/-- C3 counterexample: with an empty time configuration (no `max_jump_ms`,
no `allow_wrap`, hence wrap not permitted) the pipeline keeps a packet
whose time delta is negative (0 after 1000), although the claimed drop rule
requires it to be dropped: the time stage is skipped entirely when no time
setting is configured. -/
theorem time_filter_empty_settings_cex :
    apply_filters ⟨⟨none, none⟩, (fun _ => true), ∅⟩ [mkPacket 1000, mkPacket 0]
      = [mkPacket 1000, mkPacket 0] ∧
    timeDropSpec none false 0 1000 = true ∧
    TimeSettings.isEmpty ⟨none, none⟩ = true := by
  decide

/-- C3 (amended): the first packet always passes the time stage; whenever
at least one time setting is configured, a later packet passes the time
stage iff the claimed drop rule does not fire (delta against the last
accepted time, `2^24` added to a negative delta when wrap is allowed, drop
iff the adjusted delta exceeds `maxJumpMs` — unbounded by default — or is
negative with wrap not allowed); with an empty time configuration the
stage is disabled and every packet passes it; and the pipeline equals the
reference pass whose baseline is the last accepted packet's time, updated
only on acceptance. -/
theorem time_filter_amended (cfg : FilterCfg) (packets : List TelemetryPacket) (t prev : Int) :
    _passes_time_filter cfg.time_settings t none = true ∧
    (cfg.time_settings.isEmpty = false →
      _passes_time_filter cfg.time_settings t (some prev)
        = !(timeDropSpec cfg.time_settings.max_jump_ms
            (cfg.time_settings.allow_wrap.getD false) t prev)) ∧
    (cfg.time_settings.isEmpty = true →
      _passes_time_filter cfg.time_settings t (some prev) = true) ∧
    apply_filters cfg packets = pipelineSpec cfg packets.enum none := by
  refine ⟨rfl, ?_, ?_, ?_⟩
  · exact pass_eq_not_drop _ _ _
  · intro hemp
    simp [_passes_time_filter, hemp]
  · rw [apply_filters, apply_filters_go_eq]
    rfl

theorem time_filter_amended_witness :
    _passes_time_filter ⟨some 2000, some false⟩ 5 none = true ∧
    (TimeSettings.isEmpty ⟨some 2000, some false⟩ = false →
      _passes_time_filter ⟨some 2000, some false⟩ 5 (some 3)
        = !(timeDropSpec (some 2000) ((some false).getD false) 5 3)) ∧
    (TimeSettings.isEmpty ⟨some 2000, some false⟩ = true →
      _passes_time_filter ⟨some 2000, some false⟩ 5 (some 3) = true) ∧
    apply_filters ⟨⟨some 2000, some false⟩, (fun _ => true), ∅⟩ [mkPacket 0]
      = pipelineSpec ⟨⟨some 2000, some false⟩, (fun _ => true), ∅⟩ [mkPacket 0].enum none :=
  time_filter_amended ⟨⟨some 2000, some false⟩, (fun _ => true), ∅⟩ [mkPacket 0] 5 3

/-- C4 counterexample: for the flags byte `0x80` (only `start`, bit 7, set)
`to_string` yields `"00000001"` — character 0 is the `err` flag (bit 0) and
character 7 the `start` flag — so the string handed to the CSV exporter is
not in MSB-to-LSB `start..err` order. -/
theorem flags_string_order_cex :
    (SystemFlags.from_byte 128).start = true ∧
    (SystemFlags.from_byte 128).to_string = "00000001" ∧
    (SystemFlags.from_byte 128).to_string ≠ flagsStringMSB (SystemFlags.from_byte 128) := by
  decide

set_option maxRecDepth 4096 in
/-- C4 (amended): the flags value handed to the CSV exporter
(`to_dict`'s `'flags'` entry) is `to_string`, an 8-character bit string in
LSB-to-MSB order: character `k` is bit `k` of the flags byte, so character
0 is the `err` flag and character 7 the `start` flag. -/
theorem flags_string_lsb_first :
    (∀ p : TelemetryPacket, p.to_dict_flags = p.flags.to_string) ∧
    ∀ b < 256, (SystemFlags.from_byte b).to_string = flagsStringLSB b :=
  ⟨fun _ => rfl, by decide⟩

/-- C9: the exclusion set is built from the drop list exactly as claimed
(a literal token contributes its single index, an `a-b` token every
position `a..b` inclusive); the manual stage drops a packet exactly when
its zero-based position in the original decoded sequence — enumerated
before any filtering — lies in that set; and the surviving packets keep
their original relative order (the output is a sublist of the input). -/
theorem manual_stage_exclusion (s : TimeSettings) (chanPass : TelemetryPacket → Bool)
    (drop_list : List Char) (packets : List TelemetryPacket)
    (hwf : ∀ t0 ∈ splitOnChar ',' drop_list,
      stripChars t0 = [] ∨ WFtoken (stripChars t0)) :
    _parse_packet_list drop_list = exclusionSetSpec drop_list ∧
    apply_filters ⟨s, chanPass, _parse_packet_list drop_list⟩ packets
      = pipelineSpec ⟨s, chanPass, exclusionSetSpec drop_list⟩ packets.enum none ∧
    (apply_filters ⟨s, chanPass, _parse_packet_list drop_list⟩ packets).Sublist packets := by
  have hp := parse_eq_spec drop_list hwf
  refine ⟨hp, ?_, ?_⟩
  · rw [apply_filters, apply_filters_go_eq, hp]
    rfl
  · exact apply_filters_go_sublist _ _ _ _

theorem manual_stage_exclusion_witness :
    _parse_packet_list "2,5-7".data = exclusionSetSpec "2,5-7".data ∧
    apply_filters ⟨⟨none, none⟩, (fun _ => true), _parse_packet_list "2,5-7".data⟩
        ((List.range 10).map (fun i => mkPacket (1000 + 100 * i)))
      = pipelineSpec ⟨⟨none, none⟩, (fun _ => true), exclusionSetSpec "2,5-7".data⟩
          ((List.range 10).map (fun i => mkPacket (1000 + 100 * i))).enum none ∧
    (apply_filters ⟨⟨none, none⟩, (fun _ => true), _parse_packet_list "2,5-7".data⟩
        ((List.range 10).map (fun i => mkPacket (1000 + 100 * i)))).Sublist
      ((List.range 10).map (fun i => mkPacket (1000 + 100 * i))) :=
  manual_stage_exclusion ⟨none, none⟩ (fun _ => true) "2,5-7".data
    ((List.range 10).map (fun i => mkPacket (1000 + 100 * i))) (by decide)
